import Mathlib

/-!
Verification development for the iris-demo client-side inference engine.

The program (docs/app.js, multi-model variant, plus a single-model variant)
evaluates pre-trained classifiers against a feature vector:
softmax normalization, feature scaling, a linear scorer, a random-forest
predictor (index-addressed decision-tree traversal), an MLP forward pass,
and a string-keyed dispatcher.  JavaScript floating-point numbers are
modelled as real numbers; JavaScript array indexing out of range (which
yields `undefined` and then NaN arithmetic) is modelled with `List.getD`
defaults or `Option`, as noted at each definition.  All theorems below only
exercise the in-range behavior where the two semantics agree, except where
an out-of-range access is itself the subject of the claim, in which case an
`Option`-valued lookup models the `undefined` faithfully.
-/

namespace IrisDemo

/-- Sum of a list of reals by a left fold with initial accumulator 0,
modelling the JavaScript idiom `arr.reduce((a,b)=>a+b, 0)`
(app.js lines 16 and 70). -/
noncomputable def listSum (l : List ℝ) : ℝ :=
  l.foldl (fun a b => a + b) 0

/-- Maximum of a list of reals, modelling `Math.max(...arr)` for a nonempty
`arr` (app.js lines 14, 118).  On the empty list JavaScript returns
`-Infinity`, which has no real counterpart; we return 0 there.  Every
theorem that touches `listMax` assumes a nonempty list as well. -/
noncomputable def listMax : List ℝ → ℝ
  | [] => 0
  | a :: as => as.foldl max a

/-- Softmax, translated from app.js lines 13-18 (textually identical code
appears in the single-model variant, lines 11-16):
subtract the maximum, exponentiate, divide by the sum of exponentials. -/
noncomputable def softmax (arr : List ℝ) : List ℝ :=
  let m := listMax arr
  let exps := arr.map (fun v => Real.exp (v - m))
  let sum := listSum exps
  exps.map (fun e => e / sum)

/-- A decision-tree node, translated from the node records consumed by
`predictTree` (app.js lines 43-59).  A node is a leaf exactly when
`left = -1` and `right = -1`; `value` holds the per-class counts of a
leaf. -/
structure TreeNode where
  left : Int
  right : Int
  feature : Int
  threshold : ℝ
  value : List ℝ

/-- A model record as stored in `exportData.models` (models.json):
a `type` discriminator string plus the union of all variant fields.
Fields not used by a variant are simply ignored by its predictor, exactly
as unused JSON fields are in the source. -/
structure ModelRec where
  type : String
  coef : List (List ℝ)
  intercept : List ℝ
  trees : List (List TreeNode)
  n_classes : Option Nat
  coefs : List (List (List ℝ))
  intercepts : List (List ℝ)

/-- The loaded export document (app.js line 4 and models.json shape):
scaler parameters, class names, and the name-keyed model mapping,
modelled as an association list with unique keys. -/
structure ExportData where
  scaler_mean : List ℝ
  scaler_scale : List ℝ
  class_names : List String
  models : List (String × ModelRec)

/-- Feature scaling, translated from `scaleFeatures` (app.js lines 20-25):
`features.map((v,i) => (Number(v) - mean[i]) / scale[i])`.  There is no
length check in the source; for `i` beyond the scaler arrays JavaScript
reads `undefined` and produces NaN, which the real-number model renders as
a `getD` default of 0 (theorems about mismatched lengths only use inputs
SHORTER than the scaler arrays, where the two semantics agree entry by
entry). -/
noncomputable def scaleFeatures (exportData : ExportData) (features : List ℝ) : List ℝ :=
  let mean := exportData.scaler_mean
  let scale := exportData.scaler_scale
  features.mapIdx (fun i v => (v - mean.getD i 0) / scale.getD i 0)

/-- Linear-model scoring, translated from `scoreLinear` (app.js lines
28-40): one score per row of `coef`, namely `intercept[c] || 0` plus the
dot product of the row with `xs` over the indices of the row, then softmax.
`intercept[c] || 0` is modelled by `getD c 0` (absent entries become 0,
as does a stored 0, matching the JavaScript falsy coalescing on reals). -/
noncomputable def scoreLinear (coef : List (List ℝ)) (intercept : List ℝ) (xs : List ℝ) : List ℝ :=
  let nClasses := coef.length
  let scores := (List.range nClasses).map (fun c =>
    let row := coef.getD c []
    (List.range row.length).foldl (fun s i => s + row.getD i 0 * xs.getD i 0)
      (intercept.getD c 0))
  softmax scores

/-- Array lookup at a JavaScript integer index: `undefined` (here `none`)
for a negative or out-of-range index. -/
def listGetAt {α : Type} (l : List α) (i : Int) : Option α :=
  if 0 ≤ i then l.get? i.toNat else none

/-- Tree traversal, translated from `predictTree` (app.js lines 43-59).
The source is an unbounded `while (true)` loop; here `fuel` counts loop
iterations still allowed, so a `none` result means the loop has not
returned within `fuel` iterations (or dereferenced an invalid node index,
which in JavaScript throws).  At a node: if `left = -1` and `right = -1`
it is a leaf and its `value` (class counts) is returned; otherwise the
loop moves to `left` when `xs[feature] <= threshold` and to `right`
otherwise.  When `xs[feature]` is `undefined` the JavaScript comparison is
false and the loop moves to `right`; the `none` branch of `listGetAt`
models that. -/
noncomputable def predictTreeFuel (treeNodes : List TreeNode) (xs : List ℝ) :
    Nat → Int → Option (List ℝ)
  | 0, _ => none
  | fuel + 1, node =>
    match listGetAt treeNodes node with
    | none => none
    | some n =>
      if n.left = -1 ∧ n.right = -1 then
        some n.value
      else
        match listGetAt xs n.feature with
        | some v =>
          if v ≤ n.threshold then predictTreeFuel treeNodes xs fuel n.left
          else predictTreeFuel treeNodes xs fuel n.right
        | none => predictTreeFuel treeNodes xs fuel n.right

/-- Entry point of the traversal: `let node = 0` in the source, so the
walk starts at node index 0. -/
noncomputable def predictTree (treeNodes : List TreeNode) (xs : List ℝ) (fuel : Nat) :
    Option (List ℝ) :=
  predictTreeFuel treeNodes xs fuel 0

/-- Elementwise accumulation of the leaf counts of one tree into the aggregate,
from the loop `for (i = 0; i < counts.length; i++) agg[i] += counts[i]`
(app.js line 67): positions of `agg` beyond `counts` are unchanged, which
the `getD i 0` default reproduces (the source would grow `agg` with NaN
if `counts` were LONGER than `agg`; no claim exercises that shape). -/
noncomputable def addCounts (agg counts : List ℝ) : List ℝ :=
  agg.mapIdx (fun i a => a + counts.getD i 0)

/-- Random-forest prediction, translated from `predictRF` (app.js lines
61-72): resolve the class count as `rfModel.n_classes ||
exportData.class_names.length` (0 is falsy), start from a zero vector,
accumulate the leaf counts of each tree, then divide every entry by the grand
total `agg.reduce((a,b)=>a+b, 0)`.  The division happens UNCONDITIONALLY
in the source: with no trees the total is 0 and JavaScript produces a
vector of NaN (0/0); the real-number model renders each entry as the real
division by zero.  The `Option` layer only propagates a traversal that
exhausted its fuel. -/
noncomputable def predictRF (exportData : ExportData) (fuel : Nat) (rfModel : ModelRec)
    (xs : List ℝ) : Option (List ℝ) :=
  let nClasses := match rfModel.n_classes with
    | some n => if n = 0 then exportData.class_names.length else n
    | none => exportData.class_names.length
  let aggOpt := rfModel.trees.foldl
    (fun acc tree =>
      acc.bind fun agg => (predictTree tree xs fuel).map fun counts => addCounts agg counts)
    (some (List.replicate nClasses (0 : ℝ)))
  aggOpt.map fun agg =>
    let total := listSum agg
    agg.map fun v => v / total

/-- One dense layer of the MLP forward pass, from the inner loops of
`mlpPredict` (app.js lines 82-89): `out[j] = b[j] + Σ_{i < a.length}
a[i] * W[i][j]`, computed as a left fold exactly as the
accumulation loop does. -/
noncomputable def mlpLayer (a : List ℝ) (W : List (List ℝ)) (b : List ℝ) : List ℝ :=
  (List.range b.length).map (fun j =>
    (List.range a.length).foldl
      (fun s i => s + a.getD i 0 * ((W.getD i []).getD j 0))
      (b.getD j 0))

/-- Rectified linear unit `Math.max(0, v)` (app.js line 92). -/
noncomputable def relu (v : ℝ) : ℝ := max 0 v

/-- The layer loop of `mlpPredict` (app.js lines 79-95) over the list of
(weights, bias) pairs: every layer but the last is followed by an
elementwise ReLU; the raw output of the last layer is returned unchanged. -/
noncomputable def mlpForward : List ℝ → List (List (List ℝ) × List ℝ) → List ℝ
  | a, [] => a
  | a, [(W, b)] => mlpLayer a W b
  | a, (W, b) :: rest => mlpForward ((mlpLayer a W b).map relu) rest

/-- MLP prediction, translated from `mlpPredict` (app.js lines 75-97):
run the layer loop on the (coefs, intercepts) pairs, then softmax.  The
source indexes `intercepts[layer]` while looping over `coefs`; the `zip`
is identical whenever the two lists have equal length, which is the
shape `models.json` always has. -/
noncomputable def mlpPredict (mlpModel : ModelRec) (xs_raw : List ℝ) : List ℝ :=
  softmax (mlpForward xs_raw (mlpModel.coefs.zip mlpModel.intercepts))

/-- The dispatcher, translated from `predictWithModel` (app.js lines
100-113): look the name up in `exportData.models`; a missing model or an
unrecognized `type` string yields `null` (here `none`); otherwise route on
the `type` discriminator to the linear, random-forest, or MLP
predictor. -/
noncomputable def predictWithModel (exportData : ExportData) (fuel : Nat)
    (modelName : String) (xs_scaled : List ℝ) : Option (List ℝ) :=
  match exportData.models.lookup modelName with
  | none => none
  | some model =>
    if model.type = "linear" then some (scoreLinear model.coef model.intercept xs_scaled)
    else if model.type = "rf" then predictRF exportData fuel model xs_scaled
    else if model.type = "mlp" then some (mlpPredict model xs_scaled)
    else none

/-- First index at which `x` occurs in a list, translated from the
JavaScript `probs.indexOf(x)` idiom: the lowest matching index, `-1` when
absent (app.js line 118 inside `probsToText`, also lines 161, 180, 193,
and line 36 of the single-model variant). -/
noncomputable def indexOfFirst (x : ℝ) : List ℝ → Int
  | [] => -1
  | a :: as =>
    if a = x then 0
    else if indexOfFirst x as = -1 then -1 else indexOfFirst x as + 1

/-- The winning-class selection `probs.indexOf(Math.max(...probs))`
shared by `probsToText` (app.js line 118) and `predictFromFeatures`
(single-model variant, line 36). -/
noncomputable def argmaxIdx (probs : List ℝ) : Int :=
  indexOfFirst (listMax probs) probs

/-- Dense-layer output written with an explicit finite sum, following the
specification text `out[j] = bias[j] + Σ_i a[i] * weights[i][j]`.  This is
the specification-side comparator for the refinement statement about
`mlpLayer`, which computes the same quantity by the accumulation of the source
loop. -/
noncomputable def denseOut (a : List ℝ) (W : List (List ℝ)) (b : List ℝ) : List ℝ :=
  (List.range b.length).map fun j =>
    b.getD j 0 + ∑ i ∈ Finset.range a.length, a.getD i 0 * ((W.getD i []).getD j 0)

/-- Specification-side layer loop: matrix-vector step by `denseOut`,
elementwise ReLU after every layer except the last, the raw final-layer
output returned unchanged.  Comparator for `mlpForward`. -/
noncomputable def mlpForwardSpec : List ℝ → List (List (List ℝ) × List ℝ) → List ℝ
  | a, [] => a
  | a, [(W, b)] => denseOut a W b
  | a, (W, b) :: rest => mlpForwardSpec ((denseOut a W b).map relu) rest

/-- Well-formedness of an exported tree array: every non-leaf node has
both child indices inside the array and strictly greater than its own
index.  This is the layout the scikit-learn export produces (nodes in
preorder) and is a sufficient acyclicity condition for traversal. -/
def IncreasingTree (tn : List TreeNode) : Prop :=
  ∀ i : Nat, ∀ h : i < tn.length,
    ¬((tn.get ⟨i, h⟩).left = -1 ∧ (tn.get ⟨i, h⟩).right = -1) →
      ((i : Int) < (tn.get ⟨i, h⟩).left ∧ (tn.get ⟨i, h⟩).left < (tn.length : Int) ∧
       (i : Int) < (tn.get ⟨i, h⟩).right ∧ (tn.get ⟨i, h⟩).right < (tn.length : Int))

/-- A one-node tree whose single internal node names itself as both
children: the smallest cyclic (malformed) tree array. -/
noncomputable def cyclicTree : List TreeNode :=
  [⟨0, 0, 0, 0, []⟩]

/-- A well-formed three-node tree: root split on feature 0 at threshold
0.5, left leaf counts [5, 0], right leaf counts [0, 5] (the tree of the
worked scenario of the specification). -/
noncomputable def demoTree : List TreeNode :=
  [⟨1, 2, 0, 0.5, []⟩, ⟨-1, -1, -2, 0, [5, 0]⟩, ⟨-1, -1, -2, 0, [0, 5]⟩]

/-- A random-forest model record with an empty tree list and three
classes. -/
noncomputable def emptyRF : ModelRec :=
  ⟨"rf", [], [], [], some 3, [], []⟩

/-- A small linear model record over two features and three classes. -/
noncomputable def linModel : ModelRec :=
  ⟨"linear", [[1, 0], [0, 1], [0, 0]], [0, 0, 0], [], none, [], []⟩

/-- A bundle holding the single linear model under the key used by the
page for the logistic classifier. -/
noncomputable def demoExport : ExportData :=
  ⟨[0, 0], [1, 1], ["setosa", "versicolor", "virginica"], [("logistic", linModel)]⟩

/-! ### List helper lemmas -/

lemma foldl_add_eq (l : List ℝ) : ∀ c : ℝ, l.foldl (fun a b => a + b) c = c + l.sum := by
  induction l with
  | nil => intro c; simp
  | cons a as ih => intro c; simp only [List.foldl_cons, List.sum_cons, ih]; ring

lemma listSum_eq_sum (l : List ℝ) : listSum l = l.sum := by
  simp [listSum, foldl_add_eq]

lemma le_foldl_max (as : List ℝ) : ∀ a : ℝ, a ≤ as.foldl max a := by
  induction as with
  | nil => intro a; simp
  | cons b bs ih =>
    intro a
    exact le_trans (le_max_left a b) (ih (max a b))

lemma foldl_max_le_of_mem (as : List ℝ) : ∀ a x, x ∈ as → x ≤ as.foldl max a := by
  induction as with
  | nil => intro a x hx; simp at hx
  | cons b bs ih =>
    intro a x hx
    rcases List.mem_cons.mp hx with rfl | hx
    · exact le_trans (le_max_right a x) (le_foldl_max bs (max a x))
    · exact ih (max a b) x hx

lemma foldl_max_choice (as : List ℝ) : ∀ a : ℝ, as.foldl max a = a ∨ as.foldl max a ∈ as := by
  induction as with
  | nil => intro a; left; rfl
  | cons b bs ih =>
    intro a
    rcases ih (max a b) with h | h
    · rcases max_choice a b with hm | hm
      · left; rw [List.foldl_cons, h, hm]
      · right; rw [List.foldl_cons, h, hm]; exact List.mem_cons_self b bs
    · right; exact List.mem_cons_of_mem b h

lemma listMax_mem (l : List ℝ) (h : l ≠ []) : listMax l ∈ l := by
  cases l with
  | nil => exact absurd rfl h
  | cons a as =>
    rcases foldl_max_choice as a with hc | hc
    · rw [listMax, hc]; exact List.mem_cons_self a as
    · rw [listMax]; exact List.mem_cons_of_mem a hc

lemma le_listMax (l : List ℝ) : ∀ x ∈ l, x ≤ listMax l := by
  cases l with
  | nil => intro x hx; simp at hx
  | cons a as =>
    intro x hx
    rcases List.mem_cons.mp hx with rfl | hx
    · exact le_foldl_max as x
    · exact foldl_max_le_of_mem as a x hx

lemma sum_map_div (l : List ℝ) (c : ℝ) : (l.map fun e => e / c).sum = l.sum / c := by
  induction l with
  | nil => simp
  | cons a as ih => simp [ih, add_div]

lemma foldl_range_add (f : ℕ → ℝ) (c : ℝ) : ∀ nn : ℕ,
    (List.range nn).foldl (fun s i => s + f i) c = c + ∑ i ∈ Finset.range nn, f i := by
  intro nn
  induction nn with
  | zero => simp
  | succ k ih =>
    rw [List.range_succ, List.foldl_append, ih]
    simp only [List.foldl_cons, List.foldl_nil, Finset.sum_range_succ]
    ring

/-! ### Softmax lemmas -/

lemma softmax_length (arr : List ℝ) : (softmax arr).length = arr.length := by
  simp [softmax]

lemma softmax_sum_eq_one (arr : List ℝ) (h : arr ≠ []) : listSum (softmax arr) = 1 := by
  have hpos : 0 < (arr.map fun v => Real.exp (v - listMax arr)).sum := by
    apply List.sum_pos
    · intro x hx
      obtain ⟨v, _, rfl⟩ := List.mem_map.mp hx
      exact Real.exp_pos _
    · simpa using h
  simp only [softmax, listSum_eq_sum, sum_map_div]
  rw [← listSum_eq_sum, listSum_eq_sum]
  exact div_self (ne_of_gt hpos)

lemma softmax_mem_unit (arr : List ℝ) (h : arr ≠ []) :
    ∀ p ∈ softmax arr, 0 ≤ p ∧ p ≤ 1 := by
  intro p hp
  simp only [softmax] at hp
  obtain ⟨e, he, rfl⟩ := List.mem_map.mp hp
  obtain ⟨v, _, rfl⟩ := List.mem_map.mp he
  have hnonneg : ∀ x ∈ arr.map fun v => Real.exp (v - listMax arr), 0 ≤ x := by
    intro x hx
    obtain ⟨w, _, rfl⟩ := List.mem_map.mp hx
    exact le_of_lt (Real.exp_pos _)
  have hpos : 0 < (arr.map fun v => Real.exp (v - listMax arr)).sum := by
    apply List.sum_pos
    · intro x hx
      obtain ⟨w, _, rfl⟩ := List.mem_map.mp hx
      exact Real.exp_pos _
    · simpa using h
  have hle : Real.exp (v - listMax arr) ≤ (arr.map fun v => Real.exp (v - listMax arr)).sum :=
    List.single_le_sum hnonneg _ he
  rw [listSum_eq_sum]
  constructor
  · exact div_nonneg (le_of_lt (Real.exp_pos _)) (le_of_lt hpos)
  · exact (div_le_one hpos).mpr hle

/-- C6: for every non-empty score vector, the softmax of app.js lines
13-18 (max-subtraction, exponentiation, division by the sum of
exponentials) yields entries in the unit interval summing to 1, well
within the stated 1e-6 tolerance. -/
theorem softmax_is_probability_vector (s : List ℝ) (h : s ≠ []) :
    (∀ p ∈ softmax s, 0 ≤ p ∧ p ≤ 1) ∧ |listSum (softmax s) - 1| ≤ 1e-6 := by
  refine ⟨softmax_mem_unit s h, ?_⟩
  rw [softmax_sum_eq_one s h]
  norm_num

/-- Witness for C6 at the concrete score vector [0]. -/
theorem softmax_is_probability_vector_witness :
    (([(0 : ℝ)] : List ℝ) ≠ []) ∧
      ((∀ p ∈ softmax [(0 : ℝ)], 0 ≤ p ∧ p ≤ 1) ∧ |listSum (softmax [(0 : ℝ)]) - 1| ≤ 1e-6) :=
  ⟨by simp, softmax_is_probability_vector [(0 : ℝ)] (by simp)⟩

lemma listMax_map_add (l : List ℝ) (k : ℝ) (h : l ≠ []) :
    listMax (l.map fun v => v + k) = listMax l + k := by
  cases l with
  | nil => exact absurd rfl h
  | cons a as =>
    show (as.map fun v => v + k).foldl max (a + k) = as.foldl max a + k
    clear h
    induction as generalizing a with
    | nil => rfl
    | cons b bs ih =>
      simp only [List.map_cons, List.foldl_cons]
      rw [max_add_add_right, ih]

/-- C10: adding the same constant to every score leaves the softmax of
app.js lines 13-18 unchanged; this shift invariance is why the internal
max-subtraction does not change the result. -/
theorem softmax_shift_invariant (s : List ℝ) (k : ℝ) (h : s ≠ []) :
    softmax (s.map fun v => v + k) = softmax s := by
  have hm : listMax (s.map fun v => v + k) = listMax s + k := listMax_map_add s k h
  simp only [softmax, hm, List.map_map]
  have he : ((fun v => Real.exp (v - (listMax s + k))) ∘ fun v => v + k)
      = fun v => Real.exp (v - listMax s) := by
    funext v
    simp only [Function.comp]
    congr 1
    ring
  rw [he]

/-- Witness for C10 at the score vector [0, 1] shifted by 2. -/
theorem softmax_shift_invariant_witness :
    (([(0 : ℝ), 1] : List ℝ) ≠ []) ∧
      softmax (([(0 : ℝ), 1]).map fun v => v + 2) = softmax [(0 : ℝ), 1] :=
  ⟨by simp, softmax_shift_invariant [(0 : ℝ), 1] 2 (by simp)⟩

/-! ### Linear scorer: the single-row (binary) case -/

lemma softmax_single (s : ℝ) : softmax [s] = [1] := by
  simp [softmax, listMax, listSum, Real.exp_zero]

lemma scoreLinear_single (row intercept xs : List ℝ) :
    scoreLinear [row] intercept xs = [1] := by
  have hr : List.range 1 = [0] := rfl
  simp only [scoreLinear, List.length_cons, List.length_nil, Nat.zero_add, hr,
    List.map_cons, List.map_nil]
  exact softmax_single _

/-- C1 (amended): for a linear model storing a single coefficient row,
`scoreLinear` (app.js lines 28-40) computes the single affine score and
applies softmax to the ONE-element score vector, which always collapses
to the constant probability vector [1.0]; no negated second score is
synthesized anywhere in the code. -/
theorem scoreLinear_single_row_collapses (row intercept xs : List ℝ) :
    scoreLinear [row] intercept xs = [1] :=
  scoreLinear_single row intercept xs

/-- Counterexample for C1 as stated: at the very worked
scenario (coef [[1,0,0,0]], intercept [0], input [1,0,0,0], score 1) the
code returns the one-element vector [1.0], not the two-element
softmax([score, -score]) the claim requires. -/
theorem scoreLinear_binary_not_sigmoid :
    scoreLinear [[(1 : ℝ), 0, 0, 0]] [0] [1, 0, 0, 0] ≠ softmax [(1 : ℝ), -1] := by
  intro hEq
  have hlen := congrArg List.length hEq
  rw [scoreLinear_single] at hlen
  simp [softmax] at hlen

/-! ### Scaler -/

/-- C4 (amended): `scaleFeatures` (app.js lines 20-25) performs no length
validation at all: it maps over the raw input, returning a vector of the
length of the INPUT whatever feature count the scaler has, and for every
in-range index computes `(raw[i] - mean[i]) / scale[i]` elementwise.  No
`DimensionMismatch` error path exists in the code. -/
theorem scaleFeatures_elementwise (ed : ExportData) (raw : List ℝ) :
    (scaleFeatures ed raw).length = raw.length ∧
    ∀ i, i < raw.length →
      (scaleFeatures ed raw).getD i 0 =
        (raw.getD i 0 - ed.scaler_mean.getD i 0) / ed.scaler_scale.getD i 0 := by
  constructor
  · simp [scaleFeatures]
  · intro i hi
    have h2 : i < (scaleFeatures ed raw).length := by
      simpa [scaleFeatures] using hi
    rw [List.getD_eq_getElem _ _ h2, List.getD_eq_getElem raw 0 hi]
    simp only [scaleFeatures]
    rw [List.getElem_mapIdx]

/-- Witness for C4 (amended) at a two-feature identity scaler. -/
theorem scaleFeatures_elementwise_witness :
    (scaleFeatures ⟨[(0 : ℝ), 0], [1, 1], [], []⟩ [4, 6]).length = 2 ∧
    (scaleFeatures ⟨[(0 : ℝ), 0], [1, 1], [], []⟩ [4, 6]).getD 1 0 = 6 := by
  constructor
  · exact (scaleFeatures_elementwise ⟨[(0 : ℝ), 0], [1, 1], [], []⟩ [4, 6]).1
  · have h := (scaleFeatures_elementwise ⟨[(0 : ℝ), 0], [1, 1], [], []⟩ [4, 6]).2 1 (by norm_num)
    rw [h]
    norm_num [List.getD_cons_succ, List.getD_cons_zero]

/-- Counterexample for C4 as stated: with a two-feature scaler, a raw
input of length 1 is not rejected; `scaleFeatures` silently returns the
length-1 scaled vector [5]. -/
theorem scaleFeatures_no_dimension_check :
    scaleFeatures ⟨[(0 : ℝ), 0], [1, 1], [], []⟩ [5] = [5] := by
  norm_num [scaleFeatures, List.mapIdx_cons, List.mapIdx_nil]

/-! ### Tree traversal -/

lemma predictTreeFuel_succ (tn : List TreeNode) (xs : List ℝ) (fuel : Nat) (i : Int) :
    predictTreeFuel tn xs (fuel + 1) i =
      match listGetAt tn i with
      | none => none
      | some n =>
        if n.left = -1 ∧ n.right = -1 then some n.value
        else match listGetAt xs n.feature with
          | some v =>
            if v ≤ n.threshold then predictTreeFuel tn xs fuel n.left
            else predictTreeFuel tn xs fuel n.right
          | none => predictTreeFuel tn xs fuel n.right := rfl

lemma predictTreeFuel_succ_some (tn : List TreeNode) (xs : List ℝ) (fuel : Nat) (i : Int)
    (n : TreeNode) (hget : listGetAt tn i = some n) :
    predictTreeFuel tn xs (fuel + 1) i =
      if n.left = -1 ∧ n.right = -1 then some n.value
      else match listGetAt xs n.feature with
        | some v =>
          if v ≤ n.threshold then predictTreeFuel tn xs fuel n.left
          else predictTreeFuel tn xs fuel n.right
        | none => predictTreeFuel tn xs fuel n.right := by
  rw [predictTreeFuel_succ tn xs fuel i, hget]

lemma predictTreeFuel_succ_internal (tn : List TreeNode) (xs : List ℝ) (fuel : Nat) (i : Int)
    (n : TreeNode) (v : ℝ) (hget : listGetAt tn i = some n)
    (hleaf : ¬(n.left = -1 ∧ n.right = -1)) (hxv : listGetAt xs n.feature = some v) :
    predictTreeFuel tn xs (fuel + 1) i =
      if v ≤ n.threshold then predictTreeFuel tn xs fuel n.left
      else predictTreeFuel tn xs fuel n.right := by
  rw [predictTreeFuel_succ_some tn xs fuel i n hget, if_neg hleaf, hxv]

lemma cyclicTree_loops (fuel : Nat) : predictTreeFuel cyclicTree [0] fuel 0 = none := by
  induction fuel with
  | zero => rfl
  | succ nn ih =>
    have hget : listGetAt cyclicTree (0 : Int) = some ⟨0, 0, 0, 0, []⟩ := rfl
    rw [predictTreeFuel_succ_some cyclicTree [0] nn 0 ⟨0, 0, 0, 0, []⟩ hget]
    rw [if_neg (by decide : ¬((0 : Int) = -1 ∧ (0 : Int) = -1))]
    have hx : listGetAt [(0 : ℝ)] (TreeNode.feature ⟨0, 0, 0, 0, []⟩) = some 0 := rfl
    rw [hx]
    show (if (0 : ℝ) ≤ (0 : ℝ) then predictTreeFuel cyclicTree [0] nn 0
      else predictTreeFuel cyclicTree [0] nn 0) = none
    rw [ite_self]
    exact ih

/-- Counterexample for C2 as stated: on the one-node cyclic tree whose
internal root names itself as both children, the traversal of app.js
lines 43-59 neither reaches a leaf within the node count (1) nor within
100 iterations, and its result type shows there is no `MalformedTree`
error path at all — the `while (true)` loop simply never returns (the
lemma `cyclicTree_loops` shows this for every iteration bound). -/
theorem predictTree_cycle_not_detected :
    predictTreeFuel cyclicTree [0] 1 0 = none ∧ predictTreeFuel cyclicTree [0] 100 0 = none :=
  ⟨cyclicTree_loops 1, cyclicTree_loops 100⟩

lemma predictTree_terminates_aux (tn : List TreeNode) (xs : List ℝ)
    (hwf : IncreasingTree tn) :
    ∀ fuel : Nat, ∀ i : Nat, i < tn.length → tn.length - i ≤ fuel →
      (predictTreeFuel tn xs fuel (i : Int)).isSome := by
  intro fuel
  induction fuel with
  | zero => intro i hi hle; omega
  | succ nn ih =>
    intro i hi hle
    have hget : listGetAt tn (i : Int) = some (tn.get ⟨i, hi⟩) := by
      simp [listGetAt, List.get?_eq_get, hi]
    rw [predictTreeFuel_succ_some tn xs nn (i : Int) (tn.get ⟨i, hi⟩) hget]
    by_cases hleaf : (tn.get ⟨i, hi⟩).left = -1 ∧ (tn.get ⟨i, hi⟩).right = -1
    · rw [if_pos hleaf]; rfl
    · rw [if_neg hleaf]
      obtain ⟨hl1, hl2, hr1, hr2⟩ := hwf i hi hleaf
      have hLeq : (tn.get ⟨i, hi⟩).left = (((tn.get ⟨i, hi⟩).left.toNat : ℕ) : Int) :=
        (Int.toNat_of_nonneg (by omega)).symm
      have hReq : (tn.get ⟨i, hi⟩).right = (((tn.get ⟨i, hi⟩).right.toNat : ℕ) : Int) :=
        (Int.toNat_of_nonneg (by omega)).symm
      have hLrec : (predictTreeFuel tn xs nn (tn.get ⟨i, hi⟩).left).isSome := by
        rw [hLeq]
        exact ih (tn.get ⟨i, hi⟩).left.toNat (by omega) (by omega)
      have hRrec : (predictTreeFuel tn xs nn (tn.get ⟨i, hi⟩).right).isSome := by
        rw [hReq]
        exact ih (tn.get ⟨i, hi⟩).right.toNat (by omega) (by omega)
      cases hx : listGetAt xs (tn.get ⟨i, hi⟩).feature with
      | none =>
        show (predictTreeFuel tn xs nn (tn.get ⟨i, hi⟩).right).isSome
        exact hRrec
      | some v =>
        show (if v ≤ (tn.get ⟨i, hi⟩).threshold then predictTreeFuel tn xs nn (tn.get ⟨i, hi⟩).left
          else predictTreeFuel tn xs nn (tn.get ⟨i, hi⟩).right).isSome
        by_cases hv : v ≤ (tn.get ⟨i, hi⟩).threshold
        · rw [if_pos hv]; exact hLrec
        · rw [if_neg hv]; exact hRrec

/-- C2 (amended): on a nonempty tree array whose non-leaf nodes point to
in-range, strictly larger child indices (the preorder layout of the exporter,
a sufficient acyclicity condition), the traversal of app.js lines 43-59
reaches a leaf within `tn.length` loop iterations starting from the root.
The code contains no revisit detection: on a cyclic tree it loops forever
instead of failing with `MalformedTree` (see
the one-node cyclic tree theorem above). -/
theorem predictTree_bounded_termination (tn : List TreeNode) (xs : List ℝ)
    (hwf : IncreasingTree tn) (hne : 0 < tn.length) :
    ∃ counts, predictTree tn xs tn.length = some counts := by
  have h := predictTree_terminates_aux tn xs hwf tn.length 0 hne (by omega)
  rw [show ((0 : ℕ) : Int) = (0 : Int) from rfl] at h
  exact Option.isSome_iff_exists.mp h

/-- Witness for C2 (amended) at the three-node demo tree. -/
theorem predictTree_bounded_termination_witness :
    IncreasingTree demoTree ∧ 0 < demoTree.length ∧
      ∃ counts, predictTree demoTree [0] demoTree.length = some counts := by
  have hwf : IncreasingTree demoTree := by
    unfold IncreasingTree
    decide
  exact ⟨hwf, by norm_num [demoTree],
    predictTree_bounded_termination demoTree [0] hwf (by norm_num [demoTree])⟩

/-- C8: the traversal of app.js lines 43-59 starts at node index 0
(first conjunct, `predictTree` unfolds to the walk from index 0); at a
leaf (`left = -1` and `right = -1`) it returns the stored class
counts; at an internal node with the feature value available it descends
to the left child exactly when `xs[feature] <= threshold` (non-strict, so
a tie goes left) and to the right child when `threshold < xs[feature]`. -/
theorem predictTree_traversal_semantics (tn : List TreeNode) (xs : List ℝ) (fuel : Nat)
    (i : Int) (n : TreeNode) (v : ℝ) (hget : listGetAt tn i = some n) :
    (predictTree tn xs (fuel + 1) = predictTreeFuel tn xs (fuel + 1) 0) ∧
    ((n.left = -1 ∧ n.right = -1) →
        predictTreeFuel tn xs (fuel + 1) i = some n.value) ∧
    (¬(n.left = -1 ∧ n.right = -1) → listGetAt xs n.feature = some v →
        ((v ≤ n.threshold →
            predictTreeFuel tn xs (fuel + 1) i = predictTreeFuel tn xs fuel n.left) ∧
         (n.threshold < v →
            predictTreeFuel tn xs (fuel + 1) i = predictTreeFuel tn xs fuel n.right))) := by
  refine ⟨rfl, ?_, ?_⟩
  · intro hleaf
    rw [predictTreeFuel_succ_some tn xs fuel i n hget, if_pos hleaf]
  · intro hleaf hxv
    constructor
    · intro hv
      rw [predictTreeFuel_succ_internal tn xs fuel i n v hget hleaf hxv, if_pos hv]
    · intro hv
      rw [predictTreeFuel_succ_internal tn xs fuel i n v hget hleaf hxv,
        if_neg (not_le.mpr hv)]

/-- Witness for C8: at the root of the demo tree with input [0.2] the walk
descends to the left child (0.2 ≤ 0.5), and that left child is a leaf
returning counts [5, 0]. -/
theorem predictTree_traversal_semantics_witness :
    predictTreeFuel demoTree [(0.2 : ℝ)] 2 0 = predictTreeFuel demoTree [(0.2 : ℝ)] 1 1 ∧
    predictTreeFuel demoTree [(0.2 : ℝ)] 1 1 = some [5, 0] := by
  have hroot : listGetAt demoTree (0 : Int) = some ⟨1, 2, 0, 0.5, []⟩ := rfl
  have hleft : listGetAt demoTree (1 : Int) = some ⟨-1, -1, -2, 0, [5, 0]⟩ := rfl
  constructor
  · exact ((predictTree_traversal_semantics demoTree [(0.2 : ℝ)] 1 0 ⟨1, 2, 0, 0.5, []⟩ 0.2
      hroot).2.2 (by decide) rfl).1 (by norm_num)
  · exact (predictTree_traversal_semantics demoTree [(0.2 : ℝ)] 0 1 ⟨-1, -1, -2, 0, [5, 0]⟩ 0
      hleft).2.1 (by decide)

/-! ### Random forest on an empty ensemble -/

/-- C3: evaluation of `predictRF` (app.js lines 61-72) on a model whose
tree list is empty.  No `EmptyEnsemble` error is raised: the fold leaves
the aggregate at [0, 0, 0], the grand total is 0, and the code
unconditionally divides every entry by it — in JavaScript this yields
[NaN, NaN, NaN] (0/0); in the real-number model each entry is the real
division 0/0.  This confirms the defect the specification itself flags:
the implementation does not guard the zero-total division. -/
theorem predictRF_empty_divides_by_zero :
    predictRF ⟨[], [], [], []⟩ 1 emptyRF [0] = some [(0 : ℝ) / 0, 0 / 0, 0 / 0] := by
  simp [predictRF, emptyRF, listSum, List.replicate]

/-! ### Dispatcher -/

lemma lookup_eq_none_of_not_mem {l : List (String × ModelRec)} {name : String}
    (h : ∀ m : ModelRec, (name, m) ∉ l) : l.lookup name = none := by
  induction l with
  | nil => rfl
  | cons p rest ih =>
    obtain ⟨k, v⟩ := p
    have hk : name ≠ k := by
      intro he
      exact h v (by rw [he]; exact List.mem_cons_self _ _)
    have hbeq : (name == k) = false := beq_eq_false_iff_ne.mpr hk
    simp only [List.lookup, hbeq]
    exact ih fun m hm => h m (List.mem_cons_of_mem _ hm)

/-- C5: the dispatcher `predictWithModel` (app.js lines 100-113) returns
the error result `none` (the JavaScript `null`, not a crash) for every
model name absent from the model mapping of the bundle, and for a present
model routes on the `type` discriminator: "linear" to the linear scorer,
"rf" to the tree-ensemble predictor, "mlp" to the feed-forward predictor,
anything else to the `null` error result. -/
theorem predictWithModel_dispatches (ed : ExportData) (fuel : Nat) (name : String)
    (xs : List ℝ) :
    ((∀ m : ModelRec, (name, m) ∉ ed.models) →
        predictWithModel ed fuel name xs = none) ∧
    (∀ m : ModelRec, ed.models.lookup name = some m →
        predictWithModel ed fuel name xs =
          (if m.type = "linear" then some (scoreLinear m.coef m.intercept xs)
           else if m.type = "rf" then predictRF ed fuel m xs
           else if m.type = "mlp" then some (mlpPredict m xs)
           else none)) := by
  constructor
  · intro h
    unfold predictWithModel
    rw [lookup_eq_none_of_not_mem h]
  · intro m hm
    unfold predictWithModel
    rw [hm]

/-- Witness for C5: on the demo bundle, the absent name "missing" yields
the error result, and the present name "logistic" routes to the linear
scorer. -/
theorem predictWithModel_dispatches_witness :
    predictWithModel demoExport 1 "missing" [0, 0] = none ∧
    predictWithModel demoExport 1 "logistic" [0, 0] =
      some (scoreLinear linModel.coef linModel.intercept [0, 0]) := by
  constructor
  · refine (predictWithModel_dispatches demoExport 1 "missing" [0, 0]).1 ?_
    intro m hm
    simp only [demoExport, List.mem_cons, List.not_mem_nil, or_false, Prod.mk.injEq] at hm
    exact absurd hm.1 (by decide)
  · have h := (predictWithModel_dispatches demoExport 1 "logistic" [0, 0]).2 linModel rfl
    rw [h, if_pos (show linModel.type = "linear" from rfl)]

/-! ### Feed-forward network -/

lemma mlpLayer_eq_denseOut (a : List ℝ) (W : List (List ℝ)) (b : List ℝ) :
    mlpLayer a W b = denseOut a W b := by
  unfold mlpLayer denseOut
  apply List.map_congr_left
  intro j _
  exact foldl_range_add (fun i => a.getD i 0 * ((W.getD i []).getD j 0)) (b.getD j 0) a.length

lemma mlpForward_eq_spec (L : List (List (List ℝ) × List ℝ)) :
    ∀ a : List ℝ, mlpForward a L = mlpForwardSpec a L := by
  induction L with
  | nil => intro a; rfl
  | cons hd tl ih =>
    intro a
    obtain ⟨W, b⟩ := hd
    cases tl with
    | nil => simp only [mlpForward, mlpForwardSpec, mlpLayer_eq_denseOut]
    | cons p rest =>
      simp only [mlpForward, mlpForwardSpec, mlpLayer_eq_denseOut]
      exact ih _

/-- C7: `mlpPredict` (app.js lines 75-97) computes exactly the
forward pass of the specification: the output of each layer is
`out[j] = bias[j] + Σ_i a[i] * weights[i][j]` (the accumulation of the source
loop equals the explicit finite sum), ReLU is applied after every layer
except the last, the raw final-layer output gets no activation, and the
result is the softmax of that final output. -/
theorem mlpPredict_matches_spec (m : ModelRec) (xs : List ℝ) :
    mlpPredict m xs = softmax (mlpForwardSpec xs (m.coefs.zip m.intercepts)) := by
  unfold mlpPredict
  rw [mlpForward_eq_spec]

/-! ### Argmax -/

lemma indexOfFirst_spec (x : ℝ) : ∀ l : List ℝ, x ∈ l →
    0 ≤ indexOfFirst x l ∧ (indexOfFirst x l).toNat < l.length ∧
    l.getD (indexOfFirst x l).toNat 0 = x ∧
    ∀ j < (indexOfFirst x l).toNat, l.getD j 0 ≠ x := by
  intro l
  induction l with
  | nil => intro h; simp at h
  | cons a as ih =>
    intro hmem
    by_cases hax : a = x
    · simp only [indexOfFirst, if_pos hax]
      refine ⟨le_refl 0, by simp, by simpa using hax, ?_⟩
      intro j hj
      simp at hj
    · have hx : x ∈ as := by
        rcases List.mem_cons.mp hmem with rfl | hx
        · exact absurd rfl hax
        · exact hx
      obtain ⟨h0, hlt, hget, hbefore⟩ := ih hx
      have hne : indexOfFirst x as ≠ -1 := by omega
      simp only [indexOfFirst, if_neg hax, if_neg hne]
      have htn : (indexOfFirst x as + 1).toNat = (indexOfFirst x as).toNat + 1 := by omega
      refine ⟨by omega, ?_, ?_, ?_⟩
      · rw [htn]; simpa using hlt
      · rw [htn, List.getD_cons_succ]; exact hget
      · intro j hj
        rw [htn] at hj
        cases j with
        | zero => simpa using hax
        | succ k =>
          rw [List.getD_cons_succ]
          exact hbefore k (by omega)

/-- C9: the winning-class index `probs.indexOf(Math.max(...probs))`
(app.js line 118 and the single-model variant line 36) is the LOWEST
index attaining the maximum: it is in range, the entry there equals the
maximum, every earlier entry is strictly below the maximum, every entry
is at most the maximum — and concretely argmax([0.2, 0.5, 0.5]) = 1, not
2. -/
theorem argmaxIdx_first_max (probs : List ℝ) (h : probs ≠ []) :
    0 ≤ argmaxIdx probs ∧ (argmaxIdx probs).toNat < probs.length ∧
    probs.getD (argmaxIdx probs).toNat 0 = listMax probs ∧
    (∀ j < (argmaxIdx probs).toNat, probs.getD j 0 < listMax probs) ∧
    (∀ x ∈ probs, x ≤ listMax probs) ∧
    argmaxIdx [(0.2 : ℝ), 0.5, 0.5] = 1 := by
  obtain ⟨h0, hlt, hget, hbefore⟩ :=
    indexOfFirst_spec (listMax probs) probs (listMax_mem probs h)
  refine ⟨h0, hlt, hget, ?_, le_listMax probs, ?_⟩
  · intro j hj
    have hjlen : j < probs.length := lt_trans hj hlt
    have hmem : probs.getD j 0 ∈ probs := by
      rw [List.getD_eq_getElem probs 0 hjlen]
      exact List.getElem_mem hjlen
    exact lt_of_le_of_ne (le_listMax probs _ hmem) (hbefore j hj)
  · have hmax : listMax [(0.2 : ℝ), 0.5, 0.5] = 0.5 := by
      simp only [listMax, List.foldl_cons, List.foldl_nil]
      rw [max_eq_right (by norm_num : (0.2 : ℝ) ≤ 0.5), max_self]
    obtain ⟨g0, glt, gget, gbefore⟩ :=
      indexOfFirst_spec (listMax [(0.2 : ℝ), 0.5, 0.5]) [(0.2 : ℝ), 0.5, 0.5]
        (listMax_mem _ (by simp))
    show indexOfFirst (listMax [(0.2 : ℝ), 0.5, 0.5]) [(0.2 : ℝ), 0.5, 0.5] = 1
    rw [hmax]
    rw [hmax] at g0 glt gget gbefore
    have h3 : (indexOfFirst (0.5 : ℝ) [(0.2 : ℝ), 0.5, 0.5]).toNat < 3 := by
      simpa using glt
    have ht0 : (indexOfFirst (0.5 : ℝ) [(0.2 : ℝ), 0.5, 0.5]).toNat ≠ 0 := by
      intro he
      rw [he, List.getD_cons_zero] at gget
      norm_num at gget
    have ht2 : (indexOfFirst (0.5 : ℝ) [(0.2 : ℝ), 0.5, 0.5]).toNat ≠ 2 := by
      intro he
      have hb := gbefore 1 (by omega)
      rw [List.getD_cons_succ, List.getD_cons_zero] at hb
      exact hb rfl
    omega

/-- Witness for C9 at the tie-break vector [0.2, 0.5, 0.5]: the first of
the two maxima wins. -/
theorem argmaxIdx_first_max_witness :
    (([(0.2 : ℝ), 0.5, 0.5] : List ℝ) ≠ []) ∧ argmaxIdx [(0.2 : ℝ), 0.5, 0.5] = 1 :=
  ⟨by simp, (argmaxIdx_first_max [(0.2 : ℝ), 0.5, 0.5] (by simp)).2.2.2.2.2⟩

end IrisDemo
